import Mathlib

/-!
Verification of the matrix-multiplication program in `src/main.rs` against
its natural-language specification.

The embedding below mirrors the Rust source:
* `Matrix` is the struct with `width`, `height` and the flat row-major
  `cells` buffer (Rust `Vec<i32>`, modelled as `List Int`; 32-bit overflow
  is treated explicitly where it matters, via `cellAccOverflows`).
* Fallible operations return `Option`; a Rust panic on the calling thread
  is modelled as `none`.  `Matrix::get` / `Matrix::set` have three
  outcomes in the source (returning `Some`, returning `None` from the
  `x * y > size` check, or panicking on an out-of-range vector index), so
  they return dedicated three-valued result types.
* The worker threads of `Matrix::mul_mt` are serialised: each worker's
  channel sends are computed by `workerSends` (a worker that panics stops
  sending and its remaining cells are never delivered), and the
  orchestrator's receive loop is `deliverAll`, run on the concatenation of
  the workers' send lists.  Because every output cell is targeted by at
  most one send, the final matrix does not depend on the interleaving;
  the lemmas below characterise `deliverAll` through `lastWrite`, which is
  interleaving-insensitive when targets are unique.
-/

namespace MatrixMul

/-- The `Matrix` struct of the source: flat row-major `i32` buffer plus
dimensions.  The element at logical coordinate `(x, y)` lives at flat
index `y * width + x`. -/
structure Matrix where
  width : Nat
  height : Nat
  cells : List Int
deriving DecidableEq

/-- The construction invariant established by `Matrix::new` (and preserved
by every operation of the source): the buffer has exactly
`width * height` cells. -/
def Matrix.Wf (m : Matrix) : Prop := m.cells.length = m.width * m.height

instance (m : Matrix) : Decidable m.Wf :=
  inferInstanceAs (Decidable (m.cells.length = m.width * m.height))

/-- `Matrix::new(width, height, cells)`: fails if the buffer length is not
`width * height`. -/
def Matrix.new (width height : Nat) (cells : List Int) : Option Matrix :=
  if cells.length ≠ width * height then none
  else some ⟨width, height, cells⟩

/-- Outcome of `Matrix::get`: `ok v` is `Some(v)`; `boundsNone` is the
`None` returned when the source's check `x * y > size` fires; `panicked`
is the panic raised by `self.cells[y * self.width + x]` when the flat
index is out of range (the product check under-rejects, so this branch is
reachable). -/
inductive GetResult
  | ok (v : Int)
  | boundsNone
  | panicked
deriving DecidableEq

/-- `Matrix::get(x, y)`, including the source's (buggy) bounds check
`x * y > size`. -/
def Matrix.get (m : Matrix) (x y : Nat) : GetResult :=
  if x * y > m.width * m.height then GetResult.boundsNone
  else
    match m.cells.get? (y * m.width + x) with
    | some v => GetResult.ok v
    | none => GetResult.panicked

/-- The value `Matrix::get` yields at `(x, y)` with a default for the
non-`ok` outcomes. -/
def GetResult.getD : GetResult → Int → Int
  | GetResult.ok v, _ => v
  | GetResult.boundsNone, d => d
  | GetResult.panicked, d => d

/-- Outcome of `Matrix::set`: `ok prev m'` is `Some(prev)` together with
the updated matrix (state passing for the in-place mutation);
`boundsNone` is the `None` of the `x * y > size` check (no write
happens); `panicked` is the panic of `std::mem::replace(&mut
cells[index], value)` on an out-of-range flat index. -/
inductive SetResult
  | ok (prev : Int) (m : Matrix)
  | boundsNone
  | panicked
deriving DecidableEq

/-- `Matrix::set(x, y, value)`. -/
def Matrix.set (m : Matrix) (x y : Nat) (value : Int) : SetResult :=
  if x * y > m.width * m.height then SetResult.boundsNone
  else
    match m.cells.get? (y * m.width + x) with
    | some old =>
        SetResult.ok old ⟨m.width, m.height, m.cells.set (y * m.width + x) value⟩
    | none => SetResult.panicked

/-- The raw cell stored at coordinate `(x, y)` (default `0` when the flat
index is out of range); this is what `get` returns in its `ok` case. -/
def Matrix.entry (m : Matrix) (x y : Nat) : Int :=
  (m.cells.get? (y * m.width + x)).getD 0

/-- The accumulator loop `for k in 0..m1.width { cell += m1.get(k,
i).unwrap() * m2.get(j, k).unwrap() }` shared verbatim by `Matrix::mul`
and the workers of `Matrix::mul_mt`; an `unwrap` of `None` or a panicking
`get` aborts the computing thread (`none`). -/
def cellLoop (m1 m2 : Matrix) (i j : Nat) : List Nat → Int → Option Int
  | [], acc => some acc
  | k :: rest, acc =>
    match m1.get k i, m2.get j k with
    | GetResult.ok a, GetResult.ok b => cellLoop m1 m2 i j rest (acc + a * b)
    | _, _ => none

/-- One output cell's accumulation, over `k = 0, …, m1.width - 1`. -/
def cellValue (m1 m2 : Matrix) (i j : Nat) : Option Int :=
  cellLoop m1 m2 i j (List.range m1.width) 0

/-- The mathematical value of the output cell `(i, j)`: the sum over `k`
of `m1[k, i] * m2[j, k]` (the source's transposed index mapping). -/
def dotSum (m1 m2 : Matrix) (i j : Nat) : Int :=
  ((List.range m1.width).map (fun k => m1.entry k i * m2.entry j k)).sum

/-- The inner loop `for j in 0..m.height { … m.set(i, j, cell); }` of
`Matrix::mul`.  The `Option` result of `set` is discarded by the source,
so a `boundsNone` outcome just continues with the unchanged matrix; a
panic (in the cell computation or in `set`) aborts the whole call. -/
def mulInner (m1 m2 : Matrix) (i : Nat) : List Nat → Matrix → Option Matrix
  | [], m => some m
  | j :: rest, m =>
    match cellValue m1 m2 i j with
    | none => none
    | some c =>
      match m.set i j c with
      | SetResult.ok _ m' => mulInner m1 m2 i rest m'
      | SetResult.boundsNone => mulInner m1 m2 i rest m
      | SetResult.panicked => none

/-- The outer loop `for i in 0..m.width` of `Matrix::mul`; as in the
source, each iteration runs the inner loop over `0..m.height` of the
current output matrix. -/
def mulOuter (m1 m2 : Matrix) : List Nat → Matrix → Option Matrix
  | [], m => some m
  | i :: rest, m =>
    match mulInner m1 m2 i (List.range m.height) m with
    | none => none
    | some m' => mulOuter m1 m2 rest m'

/-- `Matrix::mul` (the sequential multiplier). -/
def Matrix.mul (m1 m2 : Matrix) : Option Matrix :=
  if m1.width ≠ m2.height then none
  else
    match Matrix.new m1.height m2.width (List.replicate (m1.height * m2.width) 0) with
    | none => none
    | some m0 => mulOuter m1 m2 (List.range m0.width) m0

/-- `thread_count` of `Matrix::mul_mt`: the output width, capped at 12. -/
def threadCount (w : Nat) : Nat := if w > 12 then 12 else w

/-- `i_start` of worker `th`: `th_index * th_cols` with
`th_cols = w / thread_count`. -/
def chunkStart (w th : Nat) : Nat := th * (w / threadCount w)

/-- The number of output columns worker `th` handles: `th_cols`, except
that the last worker also absorbs the remainder `th_cols_left`. -/
def chunkLen (w th : Nat) : Nat :=
  if th = threadCount w - 1 then w / threadCount w + w % threadCount w
  else w / threadCount w

/-- One worker's loop body: for each assigned `(i, j)` it computes the
cell and sends `(i, j, cell)` on the channel.  A panic inside the worker
(an `unwrap` failure) kills that thread: the remaining sends never
happen, but the sends already made stay in the channel. -/
def workerSends (m1 m2 : Matrix) : List (Nat × Nat) → List (Nat × Nat × Int)
  | [] => []
  | (i, j) :: rest =>
    match cellValue m1 m2 i j with
    | some c => (i, j, c) :: workerSends m1 m2 rest
    | none => []

/-- The orchestrator's receive loop `for received in rx { m.set(i, j,
cell); }`, run over the delivered triples.  `set`'s result is discarded;
a panicking `set` aborts the call. -/
def deliverAll : List (Nat × Nat × Int) → Matrix → Option Matrix
  | [], m => some m
  | (i, j, c) :: rest, m =>
    match m.set i j c with
    | SetResult.ok _ m' => deliverAll rest m'
    | SetResult.boundsNone => deliverAll rest m
    | SetResult.panicked => none

/-- `Matrix::mul_mt` (the parallel multiplier), serialised: dimension
check, eager zero allocation, worker-count and chunk computation, then
the workers' sends delivered to the orchestrator.  When the output width
is `0` the source computes `m.width / thread_count` with
`thread_count == 0`, which panics (modelled as `none`). -/
def Matrix.mul_mt (m1 m2 : Matrix) : Option Matrix :=
  if m1.width ≠ m2.height then none
  else
    match Matrix.new m1.height m2.width (List.replicate (m1.height * m2.width) 0) with
    | none => none
    | some m0 =>
      if threadCount m0.width = 0 then none
      else
        deliverAll
          ((List.range (threadCount m0.width)).flatMap (fun th =>
            workerSends m1 m2
              ((List.range' (chunkStart m0.width th) (chunkLen m0.width th)).flatMap
                (fun i => (List.range m0.height).map (fun j => (i, j)))))) m0

/-- The last value written to target `(x, y)` by a list of channel
triples (later sends override earlier ones in the orchestrator loop). -/
def lastWrite : List (Nat × Nat × Int) → Nat → Nat → Option Int
  | [], _, _ => none
  | (i, j, v) :: rest, x, y =>
    match lastWrite rest x y with
    | some w => some w
    | none => if i = x ∧ j = y then some v else none

/-- The full set of `(i, j, value)` triples an output grid of width `W`
and height `H` generates, column-major as both multipliers traverse it:
`i` ranges over `0..W` and, inside it, `j` over `0..H`. -/
def gridTriples (W H : Nat) (f : Nat → Nat → Int) : List (Nat × Nat × Int) :=
  (List.range W).flatMap (fun i => (List.range H).map (fun j => (i, j, f i j)))

/-- The successive values of the `i32` accumulator `cell` while computing
output cell `(i, j)` (the value before the loop and after each `+=`). -/
def accStates (m1 m2 : Matrix) (i j : Nat) : List Int :=
  (List.range (m1.width + 1)).map (fun n =>
    (((List.range m1.width).map (fun k => m1.entry k i * m2.entry j k)).take n).sum)

/-- Smallest value of the source's accumulator type `i32`. -/
def i32Min : Int := -(2 ^ 31)

/-- Largest value of the source's accumulator type `i32`. -/
def i32Max : Int := 2 ^ 31 - 1

/-- The accumulation of output cell `(i, j)` overflows the source's
32-bit accumulator: some intermediate value of `cell` leaves the `i32`
range. -/
def cellAccOverflows (m1 m2 : Matrix) (i j : Nat) : Prop :=
  ∃ s ∈ accStates m1 m2 i j, s < i32Min ∨ i32Max < s

instance (m1 m2 : Matrix) (i j : Nat) : Decidable (cellAccOverflows m1 m2 i j) :=
  inferInstanceAs (Decidable (∃ s ∈ accStates m1 m2 i j, s < i32Min ∨ i32Max < s))

/-- The payload of the driver's mismatch `panic!`: the two values and the
coordinate that the message `"Wrong ({} but {} at {},{})"` interpolates. -/
structure MismatchReport where
  firstValue : Int
  secondValue : Int
  x : Nat
  y : Nat
deriving DecidableEq

/-- The report the driver builds on a mismatch at `(i, j)`.  Mirrors the
source line
`panic!("Wrong ({} but {} at {},{})", result_1.get(i, j).unwrap(),
result_1.get(i, j).unwrap(), i, j)` — both value slots are taken from
`result_1`, the sequential result. -/
def mismatchReport (r1 : Matrix) (i j : Nat) : MismatchReport :=
  ⟨(r1.get i j).getD 0, (r1.get i j).getD 0, i, j⟩

/-- The driver's verification loop over `i in 0..height, j in 0..width`:
the report of the first cell where the two results' `get`s disagree, if
any. -/
def verifyResults (r1 r2 : Matrix) (height width : Nat) : Option MismatchReport :=
  ((List.range height).flatMap (fun i => (List.range width).map (fun j => (i, j)))).findSome?
    (fun p => if r1.get p.1 p.2 ≠ r2.get p.1 p.2 then some (mismatchReport r1 p.1 p.2) else none)

/-! ### Flat-index arithmetic -/

theorem flat_index_lt {x y w h : Nat} (hx : x < w) (hy : y < h) :
    y * w + x < w * h := by
  have h1 : y + 1 ≤ h := hy
  calc y * w + x < y * w + w := by omega
    _ = (y + 1) * w := by ring
    _ ≤ h * w := Nat.mul_le_mul_right w h1
    _ = w * h := Nat.mul_comm h w

theorem check_passes {x y w h : Nat} (hx : x < w) (hy : y < h) :
    ¬ x * y > w * h := by
  have := Nat.mul_le_mul (Nat.le_of_lt hx) (Nat.le_of_lt hy)
  omega

theorem flat_index_inj {x y x' y' w : Nat} (hx : x < w) (hx' : x' < w)
    (h : y * w + x = y' * w + x') : x = x' ∧ y = y' := by
  have h1 : (y * w + x) % w = x := by
    rw [Nat.add_comm, Nat.add_mul_mod_self_right]
    exact Nat.mod_eq_of_lt hx
  have h2 : (y' * w + x') % w = x' := by
    rw [Nat.add_comm, Nat.add_mul_mod_self_right]
    exact Nat.mod_eq_of_lt hx'
  have hxx : x = x' := by rw [← h1, ← h2, h]
  refine ⟨hxx, ?_⟩
  subst hxx
  have hw : 0 < w := Nat.lt_of_le_of_lt (Nat.zero_le x) hx
  exact Nat.eq_of_mul_eq_mul_right hw (by omega : y * w = y' * w)

/-! ### `get` and `set` on well-formed matrices at in-range coordinates -/

theorem Matrix.get_ok {m : Matrix} (hm : m.Wf) {x y : Nat}
    (hx : x < m.width) (hy : y < m.height) :
    m.get x y = GetResult.ok (m.entry x y) := by
  have hidx : y * m.width + x < m.cells.length := by
    rw [hm]; exact flat_index_lt hx hy
  unfold Matrix.get Matrix.entry
  rw [if_neg (check_passes hx hy)]
  simp [List.get?_eq_getElem?, List.getElem?_eq_getElem hidx]

theorem Matrix.set_ok {m : Matrix} (hm : m.Wf) {x y : Nat}
    (hx : x < m.width) (hy : y < m.height) (v : Int) :
    m.set x y v =
      SetResult.ok (m.entry x y)
        ⟨m.width, m.height, m.cells.set (y * m.width + x) v⟩ := by
  have hidx : y * m.width + x < m.cells.length := by
    rw [hm]; exact flat_index_lt hx hy
  unfold Matrix.set Matrix.entry
  rw [if_neg (check_passes hx hy)]
  simp [List.get?_eq_getElem?, List.getElem?_eq_getElem hidx]

theorem Matrix.set_ok_shape {m : Matrix} {x y : Nat} {v prev : Int} {m' : Matrix}
    (h : m.set x y v = SetResult.ok prev m') :
    m'.width = m.width ∧ m'.height = m.height ∧
      m'.cells = m.cells.set (y * m.width + x) v := by
  unfold Matrix.set at h
  split at h
  · exact absurd h (by simp)
  · split at h
    · injection h with h1 h2
      subst h2
      exact ⟨rfl, rfl, rfl⟩
    · exact absurd h (by simp)

theorem set_preserves_wf {m : Matrix} (hm : m.Wf) {x y : Nat} {v prev : Int}
    {m' : Matrix} (h : m.set x y v = SetResult.ok prev m') : m'.Wf := by
  obtain ⟨hw, hh, hc⟩ := Matrix.set_ok_shape h
  unfold Matrix.Wf at hm ⊢
  rw [hw, hh, hc, List.length_set, hm]

theorem entry_update_self {m : Matrix} (hm : m.Wf) {x y : Nat}
    (hx : x < m.width) (hy : y < m.height) (v : Int) :
    (Matrix.mk m.width m.height (m.cells.set (y * m.width + x) v)).entry x y = v := by
  have hidx : y * m.width + x < m.cells.length := by
    rw [hm]; exact flat_index_lt hx hy
  unfold Matrix.entry
  simp [List.get?_eq_getElem?, List.getElem?_set_self hidx]

theorem entry_update_other {m : Matrix} {x y x' y' : Nat}
    (hx : x < m.width) (hx' : x' < m.width) (hne : ¬(x = x' ∧ y = y')) (v : Int) :
    (Matrix.mk m.width m.height (m.cells.set (y * m.width + x) v)).entry x' y'
      = m.entry x' y' := by
  have hidx : y * m.width + x ≠ y' * m.width + x' := fun hc =>
    hne (flat_index_inj hx hx' hc)
  unfold Matrix.entry
  simp [List.get?_eq_getElem?, List.getElem?_set_ne hidx]

/-! ### The shared per-cell accumulator loop -/

theorem cellLoop_eq {m1 m2 : Matrix} (h1 : m1.Wf) (h2 : m2.Wf)
    (hc : m1.width = m2.height) {i j : Nat} (hi : i < m1.height) (hj : j < m2.width)
    (ks : List Nat) (hks : ∀ k ∈ ks, k < m1.width) :
    ∀ acc : Int,
      cellLoop m1 m2 i j ks acc =
        some (acc + (ks.map (fun k => m1.entry k i * m2.entry j k)).sum) := by
  induction ks with
  | nil => intro acc; simp [cellLoop]
  | cons k rest ih =>
    intro acc
    have hk : k < m1.width := hks k (List.mem_cons_self _ _)
    have hg1 : m1.get k i = GetResult.ok (m1.entry k i) := Matrix.get_ok h1 hk hi
    have hg2 : m2.get j k = GetResult.ok (m2.entry j k) :=
      Matrix.get_ok h2 hj (hc ▸ hk)
    rw [cellLoop]
    simp only [hg1, hg2]
    rw [ih (fun k hk => hks k (List.mem_cons_of_mem _ hk)) (acc + _)]
    simp only [List.map_cons, List.sum_cons]
    congr 1
    ring

theorem cellValue_eq {m1 m2 : Matrix} (h1 : m1.Wf) (h2 : m2.Wf)
    (hc : m1.width = m2.height) {i j : Nat} (hi : i < m1.height) (hj : j < m2.width) :
    cellValue m1 m2 i j = some (dotSum m1 m2 i j) := by
  unfold cellValue dotSum
  rw [cellLoop_eq h1 h2 hc hi hj _ (fun k hk => List.mem_range.mp hk) 0]
  simp

/-! ### `lastWrite`: the value a list of channel sends leaves at a target -/

theorem lastWrite_mem {L : List (Nat × Nat × Int)} {x y : Nat} {v : Int}
    (h : lastWrite L x y = some v) : (x, y, v) ∈ L := by
  induction L with
  | nil => simp [lastWrite] at h
  | cons t rest ih =>
    obtain ⟨i, j, u⟩ := t
    rw [lastWrite] at h
    cases hrest : lastWrite rest x y with
    | some w =>
      simp only [hrest] at h
      exact List.mem_cons_of_mem _ (ih (hrest.trans h))
    | none =>
      simp only [hrest] at h
      by_cases hcond : i = x ∧ j = y
      · rw [if_pos hcond] at h
        obtain ⟨rfl, rfl⟩ := hcond
        injection h with h
        subst h
        exact List.mem_cons_self _ _
      · rw [if_neg hcond] at h
        exact absurd h (by simp)

theorem lastWrite_isSome_of_mem {L : List (Nat × Nat × Int)} {x y : Nat} {v : Int}
    (h : (x, y, v) ∈ L) : (lastWrite L x y).isSome := by
  induction L with
  | nil => simp at h
  | cons t rest ih =>
    obtain ⟨i, j, u⟩ := t
    rw [lastWrite]
    cases hrest : lastWrite rest x y with
    | some w => simp
    | none =>
      rcases List.mem_cons.mp h with hhd | htl
      · have h1 : i = x ∧ j = y := by
          injection hhd with e1 e2
          injection e2 with e2 e3
          exact ⟨e1.symm, e2.symm⟩
        simp [if_pos h1]
      · have := ih htl
        rw [hrest] at this
        simp at this

theorem lastWrite_eq_of_unique {L : List (Nat × Nat × Int)} {x y : Nat} {v : Int}
    (hmem : (x, y, v) ∈ L) (huniq : ∀ v', (x, y, v') ∈ L → v' = v) :
    lastWrite L x y = some v := by
  cases hsome : lastWrite L x y with
  | none =>
    have := lastWrite_isSome_of_mem hmem
    rw [hsome] at this
    simp at this
  | some w =>
    rw [huniq w (lastWrite_mem hsome)]

/-! ### The orchestrator's delivery loop -/

theorem deliverAll_append (L1 L2 : List (Nat × Nat × Int)) :
    ∀ m : Matrix,
      deliverAll (L1 ++ L2) m =
        match deliverAll L1 m with
        | none => none
        | some m' => deliverAll L2 m' := by
  induction L1 with
  | nil => intro m; simp [deliverAll]
  | cons t rest ih =>
    intro m
    obtain ⟨i, j, c⟩ := t
    rw [List.cons_append, deliverAll, deliverAll]
    cases m.set i j c with
    | ok prev m' => exact ih m'
    | boundsNone => exact ih m
    | panicked => rfl

theorem deliverAll_ok (L : List (Nat × Nat × Int)) :
    ∀ m : Matrix, m.Wf → (∀ t ∈ L, t.1 < m.width ∧ t.2.1 < m.height) →
      ∃ m', deliverAll L m = some m' ∧ m'.width = m.width ∧ m'.height = m.height ∧
        m'.Wf ∧ ∀ x y, x < m.width → y < m.height →
          m'.entry x y = (lastWrite L x y).getD (m.entry x y) := by
  induction L with
  | nil =>
    intro m hm _
    exact ⟨m, rfl, rfl, rfl, hm, fun x y _ _ => by simp [lastWrite]⟩
  | cons t rest ih =>
    intro m hm hb
    obtain ⟨i, j, v⟩ := t
    have hi : i < m.width := (hb (i, j, v) (List.mem_cons_self _ _)).1
    have hj : j < m.height := (hb (i, j, v) (List.mem_cons_self _ _)).2
    have hset := Matrix.set_ok hm hi hj v
    set m1 : Matrix := ⟨m.width, m.height, m.cells.set (j * m.width + i) v⟩ with hm1
    have hm1wf : m1.Wf := set_preserves_wf hm hset
    obtain ⟨m', hrun, hw, hh, hwf, hentry⟩ :=
      ih m1 hm1wf (fun t ht => hb t (List.mem_cons_of_mem _ ht))
    refine ⟨m', ?_, hw, hh, hwf, ?_⟩
    · rw [deliverAll, hset]
      exact hrun
    · intro x y hx hy
      rw [hentry x y hx hy, lastWrite]
      cases hrest : lastWrite rest x y with
      | some w => simp
      | none =>
        simp only [Option.getD_none]
        by_cases hcond : i = x ∧ j = y
        · obtain ⟨rfl, rfl⟩ := hcond
          rw [if_pos ⟨rfl, rfl⟩, Option.getD_some]
          exact entry_update_self hm hi hj v
        · rw [if_neg hcond]
          simp only [Option.getD_none]
          exact entry_update_other hi hx hcond v

theorem deliverAll_shape (L : List (Nat × Nat × Int)) :
    ∀ m m' : Matrix, deliverAll L m = some m' →
      m'.width = m.width ∧ m'.height = m.height := by
  induction L with
  | nil =>
    intro m m' h
    rw [deliverAll] at h
    injection h with h
    subst h
    exact ⟨rfl, rfl⟩
  | cons t rest ih =>
    intro m m' h
    obtain ⟨i, j, c⟩ := t
    rw [deliverAll] at h
    cases hset : m.set i j c with
    | ok prev mm =>
      rw [hset] at h
      obtain ⟨hw, hh, _⟩ := Matrix.set_ok_shape hset
      obtain ⟨hw', hh'⟩ := ih mm m' h
      exact ⟨hw'.trans hw, hh'.trans hh⟩
    | boundsNone =>
      rw [hset] at h
      exact ih m m' h
    | panicked =>
      rw [hset] at h
      exact absurd h (by simp)

/-! ### The sequential loops are the delivery of the grid's triples -/

theorem mulInner_eq (m1 m2 : Matrix) (i : Nat) (f : Nat → Nat → Int) :
    ∀ (js : List Nat) (m : Matrix),
      (∀ j ∈ js, cellValue m1 m2 i j = some (f i j)) →
      mulInner m1 m2 i js m = deliverAll (js.map (fun j => (i, j, f i j))) m := by
  intro js
  induction js with
  | nil => intro m _; simp [mulInner, deliverAll]
  | cons j rest ih =>
    intro m h
    rw [mulInner, List.map_cons, deliverAll]
    simp only [h j (List.mem_cons_self _ _)]
    cases hset : m.set i j (f i j) with
    | ok prev m' => exact ih m' (fun j hj => h j (List.mem_cons_of_mem _ hj))
    | boundsNone => exact ih m (fun j hj => h j (List.mem_cons_of_mem _ hj))
    | panicked => rfl

theorem mulOuter_eq (m1 m2 : Matrix) (H : Nat) (f : Nat → Nat → Int) :
    ∀ (is : List Nat) (m : Matrix), m.height = H →
      (∀ i ∈ is, ∀ j, j < H → cellValue m1 m2 i j = some (f i j)) →
      mulOuter m1 m2 is m =
        deliverAll (is.flatMap (fun i => (List.range H).map (fun j => (i, j, f i j)))) m := by
  intro is
  induction is with
  | nil => intro m _ _; simp [mulOuter, deliverAll]
  | cons i rest ih =>
    intro m hH h
    have hinner : mulInner m1 m2 i (List.range m.height) m =
        deliverAll ((List.range H).map (fun j => (i, j, f i j))) m := by
      rw [hH]
      exact mulInner_eq m1 m2 i f (List.range H) m
        (fun j hj => h i (List.mem_cons_self _ _) j (List.mem_range.mp hj))
    rw [mulOuter, hinner, List.flatMap_cons, deliverAll_append]
    cases hdel : deliverAll ((List.range H).map (fun j => (i, j, f i j))) m with
    | none => rfl
    | some m' =>
      exact ih m' ((deliverAll_shape _ _ _ hdel).2.trans hH)
        (fun i hi => h i (List.mem_cons_of_mem _ hi))

/-! ### The workers' sends are the same triples, chunked -/

theorem workerSends_eq (m1 m2 : Matrix) (f : Nat → Nat → Int) :
    ∀ ps : List (Nat × Nat),
      (∀ p ∈ ps, cellValue m1 m2 p.1 p.2 = some (f p.1 p.2)) →
      workerSends m1 m2 ps = ps.map (fun p => (p.1, p.2, f p.1 p.2)) := by
  intro ps
  induction ps with
  | nil => intro _; rfl
  | cons p rest ih =>
    intro h
    obtain ⟨i, j⟩ := p
    have hp := h (i, j) (List.mem_cons_self _ _)
    rw [workerSends, hp, List.map_cons,
      ih (fun p hp => h p (List.mem_cons_of_mem _ hp))]

theorem flatMap_congr {α β : Type} {l : List α} {f g : α → List β}
    (h : ∀ a ∈ l, f a = g a) : l.flatMap f = l.flatMap g := by
  induction l with
  | nil => rfl
  | cons a l ih =>
    rw [List.flatMap_cons, List.flatMap_cons, h a (List.mem_cons_self _ _),
      ih (fun a ha => h a (List.mem_cons_of_mem _ ha))]

theorem threadCount_pos {w : Nat} (hw : 0 < w) : 0 < threadCount w := by
  unfold threadCount
  split <;> omega

theorem threadCount_le {w : Nat} : threadCount w ≤ w := by
  unfold threadCount
  split <;> omega

theorem ranges_join (q : Nat) :
    ∀ k : Nat, (List.range k).flatMap (fun th => List.range' (th * q) q) =
      List.range' 0 (k * q) := by
  intro k
  induction k with
  | zero => simp
  | succ k ih =>
    rw [List.range_succ, List.flatMap_append, ih]
    have hsingle : [k].flatMap (fun th => List.range' (th * q) q) =
        List.range' (k * q) q := by simp
    rw [hsingle]
    have := List.range'_append_1 0 (k * q) q
    simp only [Nat.zero_add] at this
    rw [this]
    congr 1
    ring

theorem chunks_join {w : Nat} (hw : 0 < w) :
    (List.range (threadCount w)).flatMap
      (fun th => List.range' (chunkStart w th) (chunkLen w th)) = List.range w := by
  have hn : 0 < threadCount w := threadCount_pos hw
  set n := threadCount w with hn_def
  set q := w / n with hq_def
  set r := w % n with hr_def
  have hqr : n * q + r = w := Nat.div_add_mod w n
  obtain ⟨k, hk⟩ : ∃ k, n = k + 1 := ⟨n - 1, by omega⟩
  have hcs : ∀ th, chunkStart w th = th * q := fun th => rfl
  have hcl : ∀ th, chunkLen w th = if th = n - 1 then q + r else q := fun th => rfl
  calc (List.range n).flatMap (fun th => List.range' (chunkStart w th) (chunkLen w th))
      = (List.range k).flatMap (fun th => List.range' (th * q) q) ++
          List.range' (k * q) (q + r) := by
        rw [hk, List.range_succ, List.flatMap_append]
        congr 1
        · refine flatMap_congr (fun th hth => ?_)
          have hth' : th < k := List.mem_range.mp hth
          rw [hcs, hcl, if_neg (by omega)]
        · simp [hcs, hcl, if_pos (by omega : k = n - 1)]
    _ = List.range' 0 (k * q) ++ List.range' (k * q) (q + r) := by rw [ranges_join]
    _ = List.range' 0 ((q + r) + k * q) := by
        have := List.range'_append_1 0 (k * q) (q + r)
        simpa using this
    _ = List.range w := by
        rw [List.range_eq_range']
        congr 1
        have : (k + 1) * q + r = w := by rw [← hk]; exact hqr
        calc (q + r) + k * q = (k + 1) * q + r := by ring
          _ = w := this

theorem mem_chunk_lt {w th i : Nat} (hw : 0 < w) (hth : th < threadCount w)
    (hi : i ∈ List.range' (chunkStart w th) (chunkLen w th)) : i < w := by
  have hmem : i ∈ List.range w := by
    rw [← chunks_join hw]
    exact List.mem_flatMap.mpr ⟨th, List.mem_range.mpr hth, hi⟩
  exact List.mem_range.mp hmem

/-! ### The grid of triples -/

theorem mem_gridTriples {W H : Nat} {f : Nat → Nat → Int} {t : Nat × Nat × Int} :
    t ∈ gridTriples W H f ↔ t.1 < W ∧ t.2.1 < H ∧ t.2.2 = f t.1 t.2.1 := by
  obtain ⟨i, j, v⟩ := t
  simp only [gridTriples, List.mem_flatMap, List.mem_map, List.mem_range, Prod.mk.injEq]
  constructor
  · rintro ⟨a, ha, b, hb, rfl, rfl, rfl⟩
    exact ⟨ha, hb, rfl⟩
  · rintro ⟨hi, hj, rfl⟩
    exact ⟨i, hi, j, hj, rfl, rfl, rfl⟩

theorem lastWrite_gridTriples {W H : Nat} {f : Nat → Nat → Int} {x y : Nat}
    (hx : x < W) (hy : y < H) : lastWrite (gridTriples W H f) x y = some (f x y) := by
  refine lastWrite_eq_of_unique (mem_gridTriples.mpr ⟨hx, hy, rfl⟩) (fun v' hv' => ?_)
  exact (mem_gridTriples.mp hv').2.2

/-! ### Characterisation of `Matrix::mul` -/

theorem zeroMatrix_wf (W H : Nat) :
    (⟨W, H, List.replicate (W * H) 0⟩ : Matrix).Wf := by
  unfold Matrix.Wf
  simp

theorem new_zero (W H : Nat) :
    Matrix.new W H (List.replicate (W * H) 0) =
      some ⟨W, H, List.replicate (W * H) 0⟩ := by
  simp [Matrix.new]

theorem mul_eq_deliver {m1 m2 : Matrix} (h1 : m1.Wf) (h2 : m2.Wf)
    (hc : m1.width = m2.height) :
    m1.mul m2 = deliverAll (gridTriples m1.height m2.width (dotSum m1 m2))
      ⟨m1.height, m2.width, List.replicate (m1.height * m2.width) 0⟩ := by
  have hcells : ∀ i ∈ List.range m1.height, ∀ j, j < m2.width →
      cellValue m1 m2 i j = some (dotSum m1 m2 i j) :=
    fun i _ j hj => cellValue_eq h1 h2 hc (by simpa using List.mem_range.mp ‹i ∈ _›) hj
  have houter := mulOuter_eq m1 m2 m2.width (dotSum m1 m2) (List.range m1.height)
    ⟨m1.height, m2.width, List.replicate (m1.height * m2.width) 0⟩ rfl hcells
  unfold Matrix.mul
  rw [if_neg (by simp [hc]), new_zero]
  exact houter

theorem mul_spec {m1 m2 : Matrix} (h1 : m1.Wf) (h2 : m2.Wf)
    (hc : m1.width = m2.height) :
    ∃ M, m1.mul m2 = some M ∧ M.width = m1.height ∧ M.height = m2.width ∧ M.Wf ∧
      ∀ x y, x < m1.height → y < m2.width → M.entry x y = dotSum m1 m2 x y := by
  obtain ⟨M, hrun, hw, hh, hwf, hentry⟩ :=
    deliverAll_ok (gridTriples m1.height m2.width (dotSum m1 m2))
      ⟨m1.height, m2.width, List.replicate (m1.height * m2.width) 0⟩
      (zeroMatrix_wf _ _)
      (fun t ht => ⟨(mem_gridTriples.mp ht).1, (mem_gridTriples.mp ht).2.1⟩)
  refine ⟨M, ?_, hw, hh, hwf, fun x y hx hy => ?_⟩
  · rw [mul_eq_deliver h1 h2 hc]
    exact hrun
  · rw [hentry x y hx hy, lastWrite_gridTriples hx hy, Option.getD_some]

/-! ### Characterisation of `Matrix::mul_mt` -/

theorem mul_mt_eq_deliver {a b : Matrix} (ha : a.Wf) (hb : b.Wf)
    (hab : a.width = b.height) (hpos : 0 < a.height) :
    a.mul_mt b = deliverAll (gridTriples a.height b.width (dotSum a b))
      ⟨a.height, b.width, List.replicate (a.height * b.width) 0⟩ := by
  have htc : ¬ threadCount a.height = 0 := by
    have := threadCount_pos hpos
    omega
  have hchunkcell : ∀ th ∈ List.range (threadCount a.height),
      workerSends a b
        ((List.range' (chunkStart a.height th) (chunkLen a.height th)).flatMap
          (fun i => (List.range b.width).map (fun j => (i, j)))) =
      (List.range' (chunkStart a.height th) (chunkLen a.height th)).flatMap
        (fun i => (List.range b.width).map (fun j => (i, j, dotSum a b i j))) := by
    intro th hth
    rw [workerSends_eq a b (dotSum a b) _ ?_, List.map_flatMap]
    · refine flatMap_congr (fun i hi => ?_)
      rw [List.map_map]
      rfl
    · intro p hp
      obtain ⟨i, hi, j, hj, rfl⟩ : ∃ i ∈ List.range' (chunkStart a.height th)
          (chunkLen a.height th), ∃ j ∈ List.range b.width, (i, j) = p := by
        simpa [List.mem_flatMap, List.mem_map] using hp
      have hiw : i < a.height := mem_chunk_lt hpos (List.mem_range.mp hth) hi
      exact cellValue_eq ha hb hab hiw (List.mem_range.mp hj)
  unfold Matrix.mul_mt
  rw [if_neg (by simp [hab]), new_zero]
  dsimp only
  rw [if_neg htc]
  congr 1
  rw [flatMap_congr hchunkcell]
  have hassoc := List.flatMap_assoc (List.range (threadCount a.height))
    (fun th => List.range' (chunkStart a.height th) (chunkLen a.height th))
    (fun i => (List.range b.width).map (fun j => (i, j, dotSum a b i j)))
  rw [← hassoc, chunks_join hpos]
  rfl

theorem mul_mt_eq_mul (a b : Matrix) (ha : a.Wf) (hb : b.Wf)
    (hab : a.width = b.height) (hpos : 0 < a.height) :
    a.mul_mt b = a.mul b := by
  rw [mul_mt_eq_deliver ha hb hab hpos, mul_eq_deliver ha hb hab]

/-! ### 32-bit overflow analysis of the shared accumulator -/

theorem sum_abs_le (c : Int) :
    ∀ l : List Int, (∀ x ∈ l, |x| ≤ c) → |l.sum| ≤ (l.length : Int) * c := by
  intro l
  induction l with
  | nil => intro _; simp
  | cons x l ih =>
    intro h
    have hx := h x (List.mem_cons_self _ _)
    have hl := ih (fun y hy => h y (List.mem_cons_of_mem _ hy))
    calc |(x :: l).sum| = |x + l.sum| := by rw [List.sum_cons]
      _ ≤ |x| + |l.sum| := abs_add _ _
      _ ≤ c + (l.length : Int) * c := add_le_add hx hl
      _ = ((x :: l).length : Int) * c := by
          rw [List.length_cons]
          push_cast
          ring

theorem entry_abs_le {m : Matrix} (hm : ∀ v ∈ m.cells, -99 ≤ v ∧ v < 99)
    (x y : Nat) : |m.entry x y| ≤ 99 := by
  unfold Matrix.entry
  cases hq : m.cells.get? (y * m.width + x) with
  | none => norm_num
  | some v =>
    have hv := hm v (List.get?_mem hq)
    rw [Option.getD_some, abs_le]
    omega

theorem prodTerm_abs_le {a b : Matrix} (ha : ∀ v ∈ a.cells, -99 ≤ v ∧ v < 99)
    (hb : ∀ v ∈ b.cells, -99 ≤ v ∧ v < 99) (i j k : Nat) :
    |a.entry k i * b.entry j k| ≤ 9801 := by
  rw [abs_mul]
  calc |a.entry k i| * |b.entry j k| ≤ 99 * 99 :=
      mul_le_mul (entry_abs_le ha k i) (entry_abs_le hb j k) (abs_nonneg _) (by norm_num)
    _ = 9801 := by norm_num

theorem no_acc_overflow (a b : Matrix) (i j : Nat)
    (ha : ∀ v ∈ a.cells, -99 ≤ v ∧ v < 99) (hb : ∀ v ∈ b.cells, -99 ≤ v ∧ v < 99)
    (hw : a.width ≤ 219108) : ¬ cellAccOverflows a b i j := by
  rintro ⟨s, hs, hout⟩
  simp only [accStates, List.mem_map, List.mem_range] at hs
  obtain ⟨n, hn, rfl⟩ := hs
  set P := (List.range a.width).map (fun k => a.entry k i * b.entry j k) with hP
  have hbound : ∀ x ∈ P.take n, |x| ≤ 9801 := by
    intro x hx
    obtain ⟨k, hk, rfl⟩ := List.mem_map.mp (List.mem_of_mem_take hx)
    exact prodTerm_abs_le ha hb i j k
  have habs := sum_abs_le 9801 (P.take n) hbound
  have hlen : ((P.take n).length : Int) ≤ 219108 := by
    have h1 : (P.take n).length ≤ P.length := by
      rw [List.length_take]
      omega
    have h2 : P.length = a.width := by rw [hP, List.length_map, List.length_range]
    have h3 : (P.take n).length ≤ 219108 := by omega
    exact_mod_cast h3
  have hfull : |(P.take n).sum| ≤ 219108 * 9801 :=
    le_trans habs (mul_le_mul_of_nonneg_right hlen (by norm_num))
  rw [abs_le] at hfull
  rcases hout with h | h <;> norm_num [i32Min, i32Max] at h <;> omega

theorem replicate_entry_left {k : Nat} (hk : k < 219109) :
    (⟨219109, 1, List.replicate 219109 (-99 : Int)⟩ : Matrix).entry k 0 = -99 := by
  show ((List.replicate 219109 (-99 : Int)).get? (0 * 219109 + k)).getD 0 = -99
  rw [List.get?_eq_getElem?, List.getElem?_replicate,
    if_pos (by omega : 0 * 219109 + k < 219109), Option.getD_some]

theorem replicate_entry_right {k : Nat} (hk : k < 219109) :
    (⟨1, 219109, List.replicate 219109 (-99 : Int)⟩ : Matrix).entry 0 k = -99 := by
  show ((List.replicate 219109 (-99 : Int)).get? (k * 1 + 0)).getD 0 = -99
  rw [List.get?_eq_getElem?, List.getElem?_replicate,
    if_pos (by omega : k * 1 + 0 < 219109), Option.getD_some]

theorem overflow_products :
    (List.range 219109).map (fun k =>
        (⟨219109, 1, List.replicate 219109 (-99 : Int)⟩ : Matrix).entry k 0 *
        (⟨1, 219109, List.replicate 219109 (-99 : Int)⟩ : Matrix).entry 0 k) =
      List.replicate 219109 (9801 : Int) := by
  rw [List.eq_replicate_iff]
  refine ⟨by rw [List.length_map, List.length_range], fun x hx => ?_⟩
  obtain ⟨k, hk, rfl⟩ := List.mem_map.mp hx
  rw [replicate_entry_left (List.mem_range.mp hk),
    replicate_entry_right (List.mem_range.mp hk)]
  norm_num

/-! ### Static partition arithmetic of `Matrix::mul_mt` -/

theorem partition_unique {n q r w i : Nat} (hn : 0 < n) (hq : 0 < q)
    (hqr : n * q + r = w) (hi : i < w) :
    ∃! th, th < n ∧ th * q ≤ i ∧
      i < th * q + (if th = n - 1 then q + r else q) := by
  have hdm := Nat.div_add_mod i q
  have hmod := Nat.mod_lt i hq
  rw [Nat.mul_comm] at hdm
  by_cases hcase : i < (n - 1) * q
  · have hdiv : i / q < n - 1 := (Nat.div_lt_iff_lt_mul hq).mpr hcase
    refine ⟨i / q, ⟨by omega, Nat.div_mul_le_self i q, ?_⟩, ?_⟩
    · rw [if_neg (by omega)]
      omega
    · rintro y ⟨hy, hylo, hyhi⟩
      have hyne : y ≠ n - 1 := by
        intro hy1
        rw [hy1] at hylo
        omega
      rw [if_neg hyne] at hyhi
      have h1 : y ≤ i / q := (Nat.le_div_iff_mul_le hq).mpr hylo
      have h2 : i / q < y + 1 := by
        rw [Nat.div_lt_iff_lt_mul hq]
        calc i < y * q + q := hyhi
          _ = (y + 1) * q := by ring
      omega
  · refine ⟨n - 1, ⟨by omega, by omega, ?_⟩, ?_⟩
    · rw [if_pos rfl]
      have hsucc : (n - 1) * q + (q + r) = n * q + r := by
        have h1 : n - 1 + 1 = n := by omega
        calc (n - 1) * q + (q + r) = ((n - 1) + 1) * q + r := by ring
          _ = n * q + r := by rw [h1]
      omega
    · rintro y ⟨hy, hylo, hyhi⟩
      by_contra hyne
      rw [if_neg hyne] at hyhi
      have hy1 : y + 1 ≤ n - 1 := by omega
      have h2 : (y + 1) * q ≤ (n - 1) * q := Nat.mul_le_mul_right q hy1
      have h3 : i < (y + 1) * q := by
        calc i < y * q + q := hyhi
          _ = (y + 1) * q := by ring
      omega

/-! ### Claim theorems -/

/-- C1, counterexample: the claim fails as stated.  The pair
A = 1×0 (width 1, height 0, empty buffer) and B = 1×1 is
multiplication-compatible (A.width = B.height = 1) and both matrices are
well formed, yet the two multipliers disagree: mul returns the empty 0×1
matrix, while mul_mt computes thread_count = output width = 0 and then
panics on the division m.width / thread_count. -/
theorem c1_counterexample_empty_output :
    (⟨1, 0, []⟩ : Matrix).Wf ∧ (⟨1, 1, [7]⟩ : Matrix).Wf ∧
    (⟨1, 0, []⟩ : Matrix).width = (⟨1, 1, [7]⟩ : Matrix).height ∧
    (⟨1, 0, []⟩ : Matrix).mul_mt ⟨1, 1, [7]⟩ ≠ (⟨1, 0, []⟩ : Matrix).mul ⟨1, 1, [7]⟩ := by
  decide

/-- C1, amended: for every pair of well-formed, multiplication-compatible
matrices whose output is non-empty (A.height ≥ 1, so a worker count of at
least one exists), the parallel multiplier returns a matrix identical
cell-for-cell to the sequential multiplier — in fact the same `Option`
value. -/
theorem c1_mul_mt_matches_mul (a b : Matrix) (ha : a.Wf) (hb : b.Wf)
    (hab : a.width = b.height) (hpos : 0 < a.height) :
    a.mul_mt b = a.mul b :=
  mul_mt_eq_mul a b ha hb hab hpos

/-- C1 witness: the amended theorem applied to the 3×2 and 2×3 matrices
of the spec's concrete scenario. -/
theorem c1_mul_mt_matches_mul_witness :
    ((⟨3, 2, [1, 2, 3, 4, 5, 6]⟩ : Matrix).Wf ∧
     (⟨2, 3, [7, 8, 9, 10, 11, 12]⟩ : Matrix).Wf ∧
     (⟨3, 2, [1, 2, 3, 4, 5, 6]⟩ : Matrix).width =
       (⟨2, 3, [7, 8, 9, 10, 11, 12]⟩ : Matrix).height ∧
     0 < (⟨3, 2, [1, 2, 3, 4, 5, 6]⟩ : Matrix).height) ∧
    (⟨3, 2, [1, 2, 3, 4, 5, 6]⟩ : Matrix).mul_mt ⟨2, 3, [7, 8, 9, 10, 11, 12]⟩ =
      (⟨3, 2, [1, 2, 3, 4, 5, 6]⟩ : Matrix).mul ⟨2, 3, [7, 8, 9, 10, 11, 12]⟩ :=
  ⟨by decide, c1_mul_mt_matches_mul _ _ (by decide) (by decide) (by decide) (by decide)⟩

/-- C2: for well-formed matrices with a.width = b.height, mul returns a
matrix constructed with width a.height and height b.width whose cell at
coordinate (i, j) is the sum over k below a.width of
a.get(k, i) * b.get(j, k) — exactly the source's transposed index
mapping. -/
theorem c2_mul_transposed_formula (a b : Matrix) (ha : a.Wf) (hb : b.Wf)
    (hab : a.width = b.height) :
    ∃ M, a.mul b = some M ∧ M.width = a.height ∧ M.height = b.width ∧
      ∀ i j, i < M.width → j < M.height →
        M.get i j = GetResult.ok
          (((List.range a.width).map
            (fun k => (a.get k i).getD 0 * (b.get j k).getD 0)).sum) := by
  obtain ⟨M, hrun, hw, hh, hwf, hentry⟩ := mul_spec ha hb hab
  refine ⟨M, hrun, hw, hh, fun i j hi hj => ?_⟩
  have hi' : i < a.height := hw ▸ hi
  have hj' : j < b.width := hh ▸ hj
  rw [Matrix.get_ok hwf hi hj, hentry i j hi' hj']
  congr 1
  unfold dotSum
  refine congrArg List.sum (List.map_congr_left (fun k hk => ?_))
  have hk' : k < a.width := List.mem_range.mp hk
  rw [Matrix.get_ok ha hk' hi', Matrix.get_ok hb hj' (hab ▸ hk')]
  rfl

/-- C2 witness: the formula theorem applied to the spec's 3×2 and 2×3
scenario matrices. -/
theorem c2_mul_transposed_formula_witness :
    ((⟨3, 2, [1, 2, 3, 4, 5, 6]⟩ : Matrix).Wf ∧
     (⟨2, 3, [7, 8, 9, 10, 11, 12]⟩ : Matrix).Wf ∧
     (⟨3, 2, [1, 2, 3, 4, 5, 6]⟩ : Matrix).width =
       (⟨2, 3, [7, 8, 9, 10, 11, 12]⟩ : Matrix).height) ∧
    (∃ M, (⟨3, 2, [1, 2, 3, 4, 5, 6]⟩ : Matrix).mul ⟨2, 3, [7, 8, 9, 10, 11, 12]⟩ =
        some M ∧
      M.width = (⟨3, 2, [1, 2, 3, 4, 5, 6]⟩ : Matrix).height ∧
      M.height = (⟨2, 3, [7, 8, 9, 10, 11, 12]⟩ : Matrix).width ∧
      ∀ i j, i < M.width → j < M.height →
        M.get i j = GetResult.ok
          (((List.range (⟨3, 2, [1, 2, 3, 4, 5, 6]⟩ : Matrix).width).map
            (fun k => ((⟨3, 2, [1, 2, 3, 4, 5, 6]⟩ : Matrix).get k i).getD 0 *
              ((⟨2, 3, [7, 8, 9, 10, 11, 12]⟩ : Matrix).get j k).getD 0)).sum)) :=
  ⟨by decide, c2_mul_transposed_formula _ _ (by decide) (by decide) (by decide)⟩

/-- C3, code bug: on the 2×2 matrix [1, 2, 3, 4] the coordinate (2, 0) is
out of range (x = width = 2), yet the product check 2 * 0 > 4 does not
fire: get(2, 0) returns the element 3 actually stored at coordinate
(0, 1), and set(2, 0, 9) overwrites that element instead of failing. -/
theorem c3_bounds_check_under_rejects :
    (⟨2, 2, [1, 2, 3, 4]⟩ : Matrix).get 2 0 = GetResult.ok 3 ∧
    (⟨2, 2, [1, 2, 3, 4]⟩ : Matrix).set 2 0 9 =
      SetResult.ok 3 ⟨2, 2, [1, 2, 9, 4]⟩ := by
  decide

/-- C4: for every compatible input pair, mul_mt chooses
thread_count = min(output width, 12) and statically partitions the output
columns 0..width into contiguous chunks: every worker below the last gets
width / n columns, the last gets width / n + width % n, every column lies
in exactly one worker's chunk, and no chunk is empty when width ≤ 12.
(The output width is a.height, since the allocation is
Matrix::new(a.height, b.width, …).) -/
theorem c4_partition (a b : Matrix) (_hab : a.width = b.height) :
    threadCount a.height = min a.height 12 ∧
    (∀ th, th < threadCount a.height - 1 →
      chunkLen a.height th = a.height / threadCount a.height) ∧
    (0 < threadCount a.height →
      chunkLen a.height (threadCount a.height - 1) =
        a.height / threadCount a.height + a.height % threadCount a.height) ∧
    (∀ i, i < a.height →
      ∃! th, th < threadCount a.height ∧ chunkStart a.height th ≤ i ∧
        i < chunkStart a.height th + chunkLen a.height th) ∧
    (a.height ≤ 12 → ∀ th, th < threadCount a.height → 0 < chunkLen a.height th) := by
  refine ⟨?_, ?_, ?_, ?_, ?_⟩
  · unfold threadCount
    split <;> omega
  · intro th hth
    unfold chunkLen
    rw [if_neg (by omega)]
  · intro h
    unfold chunkLen
    rw [if_pos rfl]
  · intro i hi
    have hw : 0 < a.height := by omega
    have hn : 0 < threadCount a.height := threadCount_pos hw
    have hq : 0 < a.height / threadCount a.height := Nat.div_pos threadCount_le hn
    exact partition_unique hn hq (Nat.div_add_mod a.height (threadCount a.height)) hi
  · intro hle th hth
    have hn : threadCount a.height = a.height := by
      unfold threadCount
      rw [if_neg (by omega)]
    rw [hn] at hth
    have hw : 0 < a.height := by omega
    unfold chunkLen
    rw [hn, Nat.div_self hw, Nat.mod_self]
    split <;> omega

/-- C4 witness: the partition theorem at the spec's 3×2 and 2×3 scenario
matrices (output width 3, bound 12: three one-column workers). -/
theorem c4_partition_witness :
    ((⟨3, 2, [1, 2, 3, 4, 5, 6]⟩ : Matrix).width =
      (⟨2, 3, [7, 8, 9, 10, 11, 12]⟩ : Matrix).height) ∧
    (threadCount (⟨3, 2, [1, 2, 3, 4, 5, 6]⟩ : Matrix).height =
      min (⟨3, 2, [1, 2, 3, 4, 5, 6]⟩ : Matrix).height 12 ∧
    (∀ th, th < threadCount (⟨3, 2, [1, 2, 3, 4, 5, 6]⟩ : Matrix).height - 1 →
      chunkLen (⟨3, 2, [1, 2, 3, 4, 5, 6]⟩ : Matrix).height th =
        (⟨3, 2, [1, 2, 3, 4, 5, 6]⟩ : Matrix).height /
          threadCount (⟨3, 2, [1, 2, 3, 4, 5, 6]⟩ : Matrix).height) ∧
    (0 < threadCount (⟨3, 2, [1, 2, 3, 4, 5, 6]⟩ : Matrix).height →
      chunkLen (⟨3, 2, [1, 2, 3, 4, 5, 6]⟩ : Matrix).height
          (threadCount (⟨3, 2, [1, 2, 3, 4, 5, 6]⟩ : Matrix).height - 1) =
        (⟨3, 2, [1, 2, 3, 4, 5, 6]⟩ : Matrix).height /
          threadCount (⟨3, 2, [1, 2, 3, 4, 5, 6]⟩ : Matrix).height +
          (⟨3, 2, [1, 2, 3, 4, 5, 6]⟩ : Matrix).height %
            threadCount (⟨3, 2, [1, 2, 3, 4, 5, 6]⟩ : Matrix).height) ∧
    (∀ i, i < (⟨3, 2, [1, 2, 3, 4, 5, 6]⟩ : Matrix).height →
      ∃! th, th < threadCount (⟨3, 2, [1, 2, 3, 4, 5, 6]⟩ : Matrix).height ∧
        chunkStart (⟨3, 2, [1, 2, 3, 4, 5, 6]⟩ : Matrix).height th ≤ i ∧
        i < chunkStart (⟨3, 2, [1, 2, 3, 4, 5, 6]⟩ : Matrix).height th +
          chunkLen (⟨3, 2, [1, 2, 3, 4, 5, 6]⟩ : Matrix).height th) ∧
    ((⟨3, 2, [1, 2, 3, 4, 5, 6]⟩ : Matrix).height ≤ 12 →
      ∀ th, th < threadCount (⟨3, 2, [1, 2, 3, 4, 5, 6]⟩ : Matrix).height →
        0 < chunkLen (⟨3, 2, [1, 2, 3, 4, 5, 6]⟩ : Matrix).height th)) :=
  ⟨by decide,
    c4_partition ⟨3, 2, [1, 2, 3, 4, 5, 6]⟩ ⟨2, 3, [7, 8, 9, 10, 11, 12]⟩ (by decide)⟩

/-- C5, counterexample: the claim fails as stated because the source
accumulates in i32.  With both operands filled with −99 (inside the
Generator's range −99..99) and inner dimension 219109, the accumulation
of output cell (0, 0) reaches 219109 * 9801 = 2147487309 > 2^31 − 1, so
the i32 accumulator overflows. -/
theorem c5_overflow_counterexample :
    (⟨219109, 1, List.replicate 219109 (-99 : Int)⟩ : Matrix).Wf ∧
    (⟨1, 219109, List.replicate 219109 (-99 : Int)⟩ : Matrix).Wf ∧
    (⟨219109, 1, List.replicate 219109 (-99 : Int)⟩ : Matrix).width =
      (⟨1, 219109, List.replicate 219109 (-99 : Int)⟩ : Matrix).height ∧
    (∀ v ∈ (⟨219109, 1, List.replicate 219109 (-99 : Int)⟩ : Matrix).cells,
      -99 ≤ v ∧ v < 99) ∧
    (∀ v ∈ (⟨1, 219109, List.replicate 219109 (-99 : Int)⟩ : Matrix).cells,
      -99 ≤ v ∧ v < 99) ∧
    cellAccOverflows (⟨219109, 1, List.replicate 219109 (-99 : Int)⟩ : Matrix)
      (⟨1, 219109, List.replicate 219109 (-99 : Int)⟩ : Matrix) 0 0 := by
  refine ⟨?_, ?_, rfl, ?_, ?_, ?_⟩
  · show (List.replicate 219109 (-99 : Int)).length = 219109 * 1
    rw [List.length_replicate, Nat.mul_one]
  · show (List.replicate 219109 (-99 : Int)).length = 1 * 219109
    rw [List.length_replicate, Nat.one_mul]
  · intro v hv
    have hv' := List.eq_of_mem_replicate hv
    subst hv'
    norm_num
  · intro v hv
    have hv' := List.eq_of_mem_replicate hv
    subst hv'
    norm_num
  · refine ⟨(List.replicate 219109 (9801 : Int)).sum, ?_, Or.inr ?_⟩
    · have hval : ((((List.range 219109).map (fun k =>
          (⟨219109, 1, List.replicate 219109 (-99 : Int)⟩ : Matrix).entry k 0 *
          (⟨1, 219109, List.replicate 219109 (-99 : Int)⟩ : Matrix).entry 0 k))).take
            219109).sum = (List.replicate 219109 (9801 : Int)).sum := by
        rw [overflow_products, List.take_replicate, Nat.min_self]
      unfold accStates
      exact List.mem_map.mpr
        ⟨219109, List.mem_range.mpr (by norm_num : (219109 : Nat) < 219109 + 1), hval⟩
    · rw [List.sum_replicate, nsmul_eq_mul]
      norm_num [i32Max]

/-- C5, amended: the per-cell accumulation stays inside the i32
accumulator's range whenever the elements of both operands are within the
Generator's range −99..99 and the inner dimension a.width is at most
219108 (so every intermediate value of cell is bounded by
219108 * 9801 = 2147477508 < 2^31); both multipliers run this same
accumulator loop.  The unrestricted claim is refuted by
the counterexample with a.width = 219109. -/
theorem c5_no_overflow_bounded_inner (a b : Matrix) (i j : Nat)
    (ha : ∀ v ∈ a.cells, -99 ≤ v ∧ v < 99) (hb : ∀ v ∈ b.cells, -99 ≤ v ∧ v < 99)
    (hw : a.width ≤ 219108) : ¬ cellAccOverflows a b i j :=
  no_acc_overflow a b i j ha hb hw

/-- C5 witness: the amended theorem at a pair of 1×1 matrices holding
−99. -/
theorem c5_no_overflow_bounded_inner_witness :
    ((∀ v ∈ (⟨1, 1, [-99]⟩ : Matrix).cells, -99 ≤ v ∧ v < 99) ∧
     (∀ v ∈ (⟨1, 1, [-99]⟩ : Matrix).cells, -99 ≤ v ∧ v < 99) ∧
     (⟨1, 1, [-99]⟩ : Matrix).width ≤ 219108) ∧
    ¬ cellAccOverflows ⟨1, 1, [-99]⟩ ⟨1, 1, [-99]⟩ 0 0 :=
  ⟨by decide, c5_no_overflow_bounded_inner ⟨1, 1, [-99]⟩ ⟨1, 1, [-99]⟩ 0 0
    (by decide) (by decide) (by decide)⟩

/-- C6: for every pair with a.width ≠ b.height, both multipliers fail
immediately with the dimension error (None); the check is the first
statement of each function, so mul_mt schedules no work and allocates no
output on this path. -/
theorem c6_dimension_mismatch (a b : Matrix) (h : a.width ≠ b.height) :
    a.mul b = none ∧ a.mul_mt b = none := by
  constructor
  · unfold Matrix.mul
    rw [if_pos h]
  · unfold Matrix.mul_mt
    rw [if_pos h]

/-- C6 witness: a 1-wide left operand against a 2-tall right operand. -/
theorem c6_dimension_mismatch_witness :
    ((⟨1, 1, [1]⟩ : Matrix).width ≠ (⟨2, 2, [1, 2, 3, 4]⟩ : Matrix).height) ∧
    ((⟨1, 1, [1]⟩ : Matrix).mul ⟨2, 2, [1, 2, 3, 4]⟩ = none ∧
     (⟨1, 1, [1]⟩ : Matrix).mul_mt ⟨2, 2, [1, 2, 3, 4]⟩ = none) :=
  ⟨by decide, c6_dimension_mismatch _ _ (by decide)⟩

/-- C7: on a well-formed matrix, set at a valid coordinate succeeds,
returns the previously stored element (the value get reported there),
mutates the cell in place, and a subsequent get returns the just-set
value. -/
theorem c7_set_get_roundtrip (m : Matrix) (hm : m.Wf) (x y : Nat) (v : Int)
    (hx : x < m.width) (hy : y < m.height) :
    ∃ m', m.set x y v = SetResult.ok (m.entry x y) m' ∧
      m.get x y = GetResult.ok (m.entry x y) ∧
      m'.get x y = GetResult.ok v := by
  refine ⟨⟨m.width, m.height, m.cells.set (y * m.width + x) v⟩,
    Matrix.set_ok hm hx hy v, Matrix.get_ok hm hx hy, ?_⟩
  have hwf : (⟨m.width, m.height, m.cells.set (y * m.width + x) v⟩ : Matrix).Wf :=
    set_preserves_wf hm (Matrix.set_ok hm hx hy v)
  rw [Matrix.get_ok hwf hx hy]
  rw [entry_update_self hm hx hy v]

/-- C7 witness: the round-trip on the 2×2 matrix [1, 2, 3, 4] at
coordinate (1, 0) with new value 42. -/
theorem c7_set_get_roundtrip_witness :
    ((⟨2, 2, [1, 2, 3, 4]⟩ : Matrix).Wf ∧
     1 < (⟨2, 2, [1, 2, 3, 4]⟩ : Matrix).width ∧
     0 < (⟨2, 2, [1, 2, 3, 4]⟩ : Matrix).height) ∧
    (∃ m', (⟨2, 2, [1, 2, 3, 4]⟩ : Matrix).set 1 0 42 =
        SetResult.ok ((⟨2, 2, [1, 2, 3, 4]⟩ : Matrix).entry 1 0) m' ∧
      (⟨2, 2, [1, 2, 3, 4]⟩ : Matrix).get 1 0 =
        GetResult.ok ((⟨2, 2, [1, 2, 3, 4]⟩ : Matrix).entry 1 0) ∧
      m'.get 1 0 = GetResult.ok 42) :=
  ⟨by decide, c7_set_get_roundtrip ⟨2, 2, [1, 2, 3, 4]⟩ (by decide) 1 0 42
    (by decide) (by decide)⟩

/-- C8, code bug: when the single worker panics before delivering its
cell (here because the left operand's buffer is empty while its
dimensions claim 1×1, so the worker's get(0, 0).unwrap panics), the
orchestrator just drains the closed channel and returns
Some of the still-zero-initialised output matrix — a partially-filled
result — instead of detecting the abnormal termination and surfacing a
WorkerFailure error.  No worker-failure detection exists in the
source. -/
theorem c8_no_worker_failure_detection :
    (⟨1, 1, []⟩ : Matrix).width = (⟨1, 1, [5]⟩ : Matrix).height ∧
    (⟨1, 1, []⟩ : Matrix).mul_mt ⟨1, 1, [5]⟩ = some ⟨1, 1, [0]⟩ := by
  decide

/-- C9, code bug: on a mismatch the driver's report interpolates
result_1's value into both value slots of the message
"Wrong (.. but .. at ..,..)" — the panic call passes
result_1.get(i, j).unwrap() twice — so when the sequential value is 1 and
the parallel value is 2, the report carries (1, 1), never showing the
parallel result's conflicting value 2. -/
theorem c9_report_repeats_sequential_value :
    (⟨1, 1, [1]⟩ : Matrix).get 0 0 = GetResult.ok 1 ∧
    (⟨1, 1, [2]⟩ : Matrix).get 0 0 = GetResult.ok 2 ∧
    verifyResults ⟨1, 1, [1]⟩ ⟨1, 1, [2]⟩ 1 1 = some ⟨1, 1, 0, 0⟩ := by
  decide

/-- C10, counterexample: the claim fails as stated.  The well-formed
compatible pair with a 1×0 left operand makes mul return Some (the empty
0×1 output), but mul_mt divides by thread_count = 0 and panics, so it is
not total on all compatible well-formed inputs. -/
theorem c10_counterexample_mul_mt_division_panic :
    (⟨1, 0, []⟩ : Matrix).Wf ∧ (⟨2, 1, [3, 4]⟩ : Matrix).Wf ∧
    (⟨1, 0, []⟩ : Matrix).width = (⟨2, 1, [3, 4]⟩ : Matrix).height ∧
    ((⟨1, 0, []⟩ : Matrix).mul ⟨2, 1, [3, 4]⟩).isSome ∧
    (⟨1, 0, []⟩ : Matrix).mul_mt ⟨2, 1, [3, 4]⟩ = none := by
  decide

/-- C10, amended: for well-formed compatible operands with a non-empty
output (a.height ≥ 1), both multipliers are total: every internal get
unwrap succeeds, every set writes in range, and both return Some. -/
theorem c10_multipliers_total (a b : Matrix) (ha : a.Wf) (hb : b.Wf)
    (hab : a.width = b.height) (hpos : 0 < a.height) :
    (a.mul b).isSome ∧ (a.mul_mt b).isSome := by
  obtain ⟨M, hrun, -, -, -, -⟩ := mul_spec ha hb hab
  constructor
  · rw [hrun]
    rfl
  · rw [mul_mt_eq_mul a b ha hb hab hpos, hrun]
    rfl

/-- C10 witness: totality at the spec's 3×2 and 2×3 scenario
matrices. -/
theorem c10_multipliers_total_witness :
    ((⟨3, 2, [1, 2, 3, 4, 5, 6]⟩ : Matrix).Wf ∧
     (⟨2, 3, [7, 8, 9, 10, 11, 12]⟩ : Matrix).Wf ∧
     (⟨3, 2, [1, 2, 3, 4, 5, 6]⟩ : Matrix).width =
       (⟨2, 3, [7, 8, 9, 10, 11, 12]⟩ : Matrix).height ∧
     0 < (⟨3, 2, [1, 2, 3, 4, 5, 6]⟩ : Matrix).height) ∧
    (((⟨3, 2, [1, 2, 3, 4, 5, 6]⟩ : Matrix).mul ⟨2, 3, [7, 8, 9, 10, 11, 12]⟩).isSome ∧
     ((⟨3, 2, [1, 2, 3, 4, 5, 6]⟩ : Matrix).mul_mt ⟨2, 3, [7, 8, 9, 10, 11, 12]⟩).isSome) :=
  ⟨by decide, c10_multipliers_total _ _ (by decide) (by decide) (by decide) (by decide)⟩

end MatrixMul

